import Mathlib

/-!
Verification of the counting semaphore of `src/semaphore.ts`.

The semaphore's mutable state consists of the available-permit counter
`_permits`, the fixed capacity `_maxPermits`, and the FIFO list `waiting`
of pending resolve callbacks.  All state mutation happens inside the
critical section guarded by the internal chained-promise lock, which
totally orders the `acquire`/`release` critical sections; we therefore
model the semaphore as a sequential state machine whose steps are the
serialized critical sections.  JavaScript numbers are modelled as exact
rationals (the values reached here stay far below 2^53, where the two
agree); pending resolve callbacks are modelled by opaque `Nat` markers.
The debug/name options only emit log lines and carry no semantics, so
they are omitted from the state.
-/

namespace CountingSemaphore

/-- The semaphore state: `permits` (`this._permits`), the fixed capacity
`maxPermits` (`this._maxPermits`), and the FIFO wait queue `waiting`
(`this.waiting`, front of the list = head of the queue). -/
structure Semaphore where
  permits : ℚ
  maxPermits : ℚ
  waiting : List Nat
  deriving DecidableEq, Repr

/-- The constructor's error message (thrown when `permits < 0`). -/
def errMsg : String :=
  "Semaphore must be initialized with a non-negative number of permits."

/-- `new Semaphore(permits)`: throws when `permits < 0`, otherwise yields
the state `_permits = _maxPermits = permits` with an empty queue. -/
def mkSemaphore (permits : ℚ) : Except String Semaphore :=
  if permits < 0 then Except.error errMsg
  else Except.ok { permits := permits, maxPermits := permits, waiting := [] }

/-- Outcome of one `acquire` critical section: the permit was granted
immediately, or a marker was queued (the caller then suspends on it). -/
inductive AcqResult where
  | granted : AcqResult
  | queued : Nat → AcqResult
  deriving DecidableEq, Repr

/-- The critical section of `acquire()`: if `_permits > 0` decrement it
and return; otherwise push a fresh resolve callback (marker `i`) onto the
tail of `waiting` and suspend on it. -/
def acquire (s : Semaphore) (i : Nat) : Semaphore × AcqResult :=
  if 0 < s.permits then
    ({ s with permits := s.permits - 1 }, AcqResult.granted)
  else
    ({ s with waiting := s.waiting ++ [i] }, AcqResult.queued i)

/-- The critical section of `release()`: if `waiting` is non-empty, shift
its head and resolve it (returned as `some marker`); otherwise increment
`_permits` when below `_maxPermits`, else warn and leave the state
unchanged (the over-release path). -/
def release (s : Semaphore) : Semaphore × Option Nat :=
  match s.waiting with
  | r :: rest => ({ s with waiting := rest }, some r)
  | [] =>
      if s.permits < s.maxPermits then
        ({ s with permits := s.permits + 1 }, none)
      else
        (s, none)

/-- One serialized operation on the semaphore. -/
inductive Op where
  | acquire : Nat → Op
  | release : Op
  deriving DecidableEq, Repr

/-- Run a list of serialized operations from a state. -/
def run (s : Semaphore) : List Op → Semaphore
  | [] => s
  | Op.acquire i :: rest => run (acquire s i).1 rest
  | Op.release :: rest => run (release s).1 rest

/-- The state produced by a successful construction with capacity `c`. -/
def initSem (c : ℚ) : Semaphore :=
  { permits := c, maxPermits := c, waiting := [] }

/-- Run a list of operations, also collecting the trace of markers
enqueued (in arrival order) and the trace of markers resolved (in
resolution order). -/
def runT (s : Semaphore) : List Op → Semaphore × List Nat × List Nat
  | [] => (s, [], [])
  | Op.acquire i :: rest =>
      let p := acquire s i
      let r := runT p.1 rest
      match p.2 with
      | AcqResult.granted => r
      | AcqResult.queued j => (r.1, j :: r.2.1, r.2.2)
  | Op.release :: rest =>
      let p := release s
      let r := runT p.1 rest
      match p.2 with
      | none => r
      | some j => (r.1, r.2.1, j :: r.2.2)

/-- The state invariant maintained by every operation (for an
integer-capacity semaphore): the permit count is a natural number, the
capacity is a natural number, permits never exceed capacity, and the
counter is zero whenever someone is waiting. -/
def SemInv (s : Semaphore) : Prop :=
  (∃ k : ℕ, s.permits = (k : ℚ)) ∧ (∃ m : ℕ, s.maxPermits = (m : ℚ)) ∧
    s.permits ≤ s.maxPermits ∧ (s.waiting ≠ [] → s.permits = 0)

theorem semInv_acquire (s : Semaphore) (i : Nat) (h : SemInv s) :
    SemInv (acquire s i).1 := by
  obtain ⟨⟨k, hk⟩, ⟨m, hm⟩, hle, hq⟩ := h
  unfold acquire
  split
  · rename 0 < s.permits => hpos
    refine ⟨⟨k - 1, ?_⟩, ⟨m, hm⟩, ?_, ?_⟩
    · have hk0 : 0 < k := by
        by_contra hc
        have : k = 0 := by omega
        rw [this] at hk
        simp [hk] at hpos
      rw [hk]
      push_cast [hk0]
      ring
    · simp only
      linarith
    · intro hw
      exact absurd (hq hw) (by linarith)
  · rename ¬ 0 < s.permits => hnp
    have hz : s.permits = 0 := by
      rw [hk] at hnp ⊢
      have : k = 0 := by
        by_contra hc
        exact hnp (by exact_mod_cast Nat.pos_of_ne_zero hc)
      simp [this]
    exact ⟨⟨k, hk⟩, ⟨m, hm⟩, hle, fun _ => hz⟩

theorem semInv_release (s : Semaphore) (h : SemInv s) :
    SemInv (release s).1 := by
  obtain ⟨⟨k, hk⟩, ⟨m, hm⟩, hle, hq⟩ := h
  unfold release
  split
  · rename_i r rest heq
    refine ⟨⟨k, hk⟩, ⟨m, hm⟩, hle, fun _ => ?_⟩
    exact hq (by simp [heq])
  · split
    · rename s.permits < s.maxPermits => hlt
      refine ⟨⟨k + 1, ?_⟩, ⟨m, hm⟩, ?_, ?_⟩
      · push_cast
        simp [hk]
      · simp only
        rw [hk, hm] at hlt ⊢
        have : k < m := by exact_mod_cast hlt
        have : k + 1 ≤ m := this
        exact_mod_cast this
      · rename_i hnil
        intro hw
        exact absurd hnil (by simpa using hw)
    · exact ⟨⟨k, hk⟩, ⟨m, hm⟩, hle, hq⟩

theorem semInv_run (ops : List Op) (s : Semaphore) (h : SemInv s) :
    SemInv (run s ops) := by
  induction ops generalizing s with
  | nil => exact h
  | cons op rest ih =>
      cases op with
      | acquire i => exact ih _ (semInv_acquire s i h)
      | release => exact ih _ (semInv_release s h)

theorem semInv_init (n : ℕ) : SemInv (initSem (n : ℚ)) := by
  refine ⟨⟨n, rfl⟩, ⟨n, rfl⟩, le_refl _, fun hw => absurd rfl hw⟩

theorem mkSemaphore_nonneg (c : ℚ) (h : 0 ≤ c) :
    mkSemaphore c = Except.ok (initSem c) := by
  unfold mkSemaphore initSem
  rw [if_neg (not_lt.mpr h)]

theorem mkSemaphore_ok (c : ℚ) (s0 : Semaphore) (h : mkSemaphore c = Except.ok s0) :
    s0 = initSem c ∧ 0 ≤ c := by
  unfold mkSemaphore at h
  split at h
  · simp at h
  · rename_i hc
    have hc' : 0 ≤ c := not_lt.mp hc
    injection h with h2
    exact ⟨h2.symm, hc'⟩

theorem acquire_maxPermits (s : Semaphore) (i : Nat) :
    (acquire s i).1.maxPermits = s.maxPermits := by
  unfold acquire
  split <;> rfl

theorem release_maxPermits (s : Semaphore) :
    (release s).1.maxPermits = s.maxPermits := by
  unfold release
  split
  · rfl
  · split <;> rfl

theorem run_maxPermits (ops : List Op) (s : Semaphore) :
    (run s ops).maxPermits = s.maxPermits := by
  induction ops generalizing s with
  | nil => rfl
  | cons op rest ih =>
      cases op with
      | acquire i => rw [run, ih, acquire_maxPermits]
      | release => rw [run, ih, release_maxPermits]

theorem run_append (l1 l2 : List Op) (s : Semaphore) :
    run s (l1 ++ l2) = run (run s l1) l2 := by
  induction l1 generalizing s with
  | nil => rfl
  | cons op rest ih => cases op <;> simp [run, ih]

theorem run_replicate_acquire (k : ℕ) (s : Semaphore) (hw : s.waiting = [])
    (hk : (k : ℚ) ≤ s.permits) :
    run s (List.replicate k (Op.acquire 0)) = { s with permits := s.permits - k } := by
  induction k generalizing s with
  | zero => simp [run]
  | succ k ih =>
      have hpos : 0 < s.permits := by
        have h1 : (0 : ℚ) < ((k + 1 : ℕ) : ℚ) := by exact_mod_cast Nat.succ_pos k
        linarith
      have hstep : acquire s 0 = ({ s with permits := s.permits - 1 }, AcqResult.granted) := by
        simp [acquire, hpos]
      rw [List.replicate_succ, run, hstep]
      rw [ih { s with permits := s.permits - 1 } hw (by push_cast at hk ⊢; linarith)]
      have harith : s.permits - 1 - (k : ℚ) = s.permits - ((k + 1 : ℕ) : ℚ) := by
        push_cast
        ring
      simp [harith]

theorem run_replicate_release (k : ℕ) (s : Semaphore) (hw : s.waiting = [])
    (hk : s.permits + (k : ℚ) ≤ s.maxPermits) :
    run s (List.replicate k Op.release) = { s with permits := s.permits + k } := by
  induction k generalizing s with
  | zero => simp [run]
  | succ k ih =>
      have hlt : s.permits < s.maxPermits := by
        have h1 : (1 : ℚ) ≤ ((k + 1 : ℕ) : ℚ) := by exact_mod_cast Nat.succ_le_succ (Nat.zero_le k)
        linarith
      have hstep : release s = ({ s with permits := s.permits + 1 }, none) := by
        simp [release, hw, hlt]
      rw [List.replicate_succ, run, hstep]
      rw [ih { s with permits := s.permits + 1 } hw (by push_cast at hk ⊢; linarith)]
      have harith : s.permits + 1 + (k : ℚ) = s.permits + ((k + 1 : ℕ) : ℚ) := by
        push_cast
        ring
      simp [harith]

theorem runT_acq_pos (s : Semaphore) (i : Nat) (rest : List Op) (hp : 0 < s.permits) :
    runT s (Op.acquire i :: rest) = runT { s with permits := s.permits - 1 } rest := by
  simp [runT, acquire, hp]

theorem runT_acq_neg (s : Semaphore) (i : Nat) (rest : List Op) (hp : ¬ 0 < s.permits) :
    runT s (Op.acquire i :: rest) =
      ((runT { s with waiting := s.waiting ++ [i] } rest).1,
        i :: (runT { s with waiting := s.waiting ++ [i] } rest).2.1,
        (runT { s with waiting := s.waiting ++ [i] } rest).2.2) := by
  simp [runT, acquire, hp]

theorem runT_rel_cons (s : Semaphore) (r0 : Nat) (tl : List Nat) (rest : List Op)
    (hw : s.waiting = r0 :: tl) :
    runT s (Op.release :: rest) =
      ((runT { s with waiting := tl } rest).1,
        (runT { s with waiting := tl } rest).2.1,
        r0 :: (runT { s with waiting := tl } rest).2.2) := by
  simp [runT, release, hw]

theorem runT_rel_nil_lt (s : Semaphore) (rest : List Op) (hw : s.waiting = [])
    (hp : s.permits < s.maxPermits) :
    runT s (Op.release :: rest) = runT { s with permits := s.permits + 1 } rest := by
  simp [runT, release, hw, hp]

theorem runT_rel_nil_ge (s : Semaphore) (rest : List Op) (hw : s.waiting = [])
    (hp : ¬ s.permits < s.maxPermits) :
    runT s (Op.release :: rest) = runT s rest := by
  simp [runT, release, hw, hp]

theorem runT_waiting_eq (ops : List Op) (s : Semaphore) :
    s.waiting ++ (runT s ops).2.1 = (runT s ops).2.2 ++ (runT s ops).1.waiting := by
  induction ops generalizing s with
  | nil => simp [runT]
  | cons op rest ih =>
      cases op with
      | acquire i =>
          by_cases hp : 0 < s.permits
          · rw [runT_acq_pos s i rest hp]
            exact ih { s with permits := s.permits - 1 }
          · rw [runT_acq_neg s i rest hp]
            have h2 := ih { s with waiting := s.waiting ++ [i] }
            simp only at h2 ⊢
            rw [show s.waiting ++ i :: (runT { s with waiting := s.waiting ++ [i] } rest).2.1 =
                (s.waiting ++ [i]) ++ (runT { s with waiting := s.waiting ++ [i] } rest).2.1 by
              simp]
            exact h2
      | release =>
          rcases hw : s.waiting with _ | ⟨r0, tl⟩
          · by_cases hp : s.permits < s.maxPermits
            · rw [runT_rel_nil_lt s rest hw hp]
              simpa [hw] using ih { s with permits := s.permits + 1 }
            · rw [runT_rel_nil_ge s rest hw hp]
              simpa [hw] using ih s
          · rw [runT_rel_cons s r0 tl rest hw]
            have h2 := ih { s with waiting := tl }
            simp only at h2 ⊢
            rw [List.cons_append, h2]
            simp

theorem runT_fst (ops : List Op) (s : Semaphore) :
    (runT s ops).1 = run s ops := by
  induction ops generalizing s with
  | nil => rfl
  | cons op rest ih =>
      cases op with
      | acquire i =>
          by_cases hp : 0 < s.permits
          · rw [runT_acq_pos s i rest hp, run]
            have ha : (acquire s i).1 = { s with permits := s.permits - 1 } := by
              simp [acquire, hp]
            rw [ha]
            exact ih _
          · rw [runT_acq_neg s i rest hp, run]
            have ha : (acquire s i).1 = { s with waiting := s.waiting ++ [i] } := by
              simp [acquire, hp]
            rw [ha]
            exact ih _
      | release =>
          rcases hw : s.waiting with _ | ⟨r0, tl⟩
          · by_cases hp : s.permits < s.maxPermits
            · rw [runT_rel_nil_lt s rest hw hp, run]
              have ha : (release s).1 = { s with permits := s.permits + 1 } := by
                simp [release, hw, hp]
              rw [ha]
              exact ih _
            · rw [runT_rel_nil_ge s rest hw hp, run]
              have ha : (release s).1 = s := by
                simp [release, hw, hp]
              rw [ha]
              exact ih _
          · rw [runT_rel_cons s r0 tl rest hw, run]
            have ha : (release s).1 = { s with waiting := tl } := by
              simp [release, hw]
            rw [ha]
            exact ih _

/-- C1: for every reachable state of a semaphore constructed with capacity
`n ≥ 0` (any serialized sequence of acquire and release operations after
construction), the available-permit count satisfies
`0 ≤ permits ≤ maxPermits`. -/
theorem claim1_permits_bounded (n : ℕ) (s0 : Semaphore) (ops : List Op)
    (h0 : mkSemaphore (n : ℚ) = Except.ok s0) :
    0 ≤ (run s0 ops).permits ∧ (run s0 ops).permits ≤ (run s0 ops).maxPermits := by
  obtain ⟨rfl, -⟩ := mkSemaphore_ok _ _ h0
  obtain ⟨⟨k, hk⟩, -, hle, -⟩ := semInv_run ops _ (semInv_init n)
  refine ⟨?_, hle⟩
  rw [hk]
  exact Nat.cast_nonneg k

theorem claim1_witness :
    mkSemaphore ((2 : ℕ) : ℚ) = Except.ok (initSem ((2 : ℕ) : ℚ)) ∧
    (0 ≤ (run (initSem ((2 : ℕ) : ℚ)) [Op.acquire 0, Op.release, Op.release]).permits ∧
      (run (initSem ((2 : ℕ) : ℚ)) [Op.acquire 0, Op.release, Op.release]).permits ≤
        (run (initSem ((2 : ℕ) : ℚ)) [Op.acquire 0, Op.release, Op.release]).maxPermits) :=
  ⟨by norm_num [mkSemaphore, initSem],
    claim1_permits_bounded 2 _ [Op.acquire 0, Op.release, Op.release]
      (by norm_num [mkSemaphore, initSem])⟩

/-- C2: in every reachable state of a semaphore with integer capacity, a
non-empty wait queue forces `permits = 0`. -/
theorem claim2_queue_forces_zero (n : ℕ) (s0 : Semaphore) (ops : List Op)
    (h0 : mkSemaphore (n : ℚ) = Except.ok s0)
    (hw : (run s0 ops).waiting ≠ []) :
    (run s0 ops).permits = 0 := by
  obtain ⟨rfl, -⟩ := mkSemaphore_ok _ _ h0
  obtain ⟨-, -, -, hq⟩ := semInv_run ops _ (semInv_init n)
  exact hq hw

theorem claim2_witness :
    (run (initSem ((0 : ℕ) : ℚ)) [Op.acquire 5]).waiting ≠ [] ∧
    (run (initSem ((0 : ℕ) : ℚ)) [Op.acquire 5]).permits = 0 :=
  ⟨by norm_num [run, acquire, initSem],
    claim2_queue_forces_zero 0 _ [Op.acquire 5]
      (by norm_num [mkSemaphore, initSem])
      (by norm_num [run, acquire, initSem])⟩

/-- C3: when the wait queue is non-empty in a reachable state, `release`
removes exactly the head marker and resolves it (no other entry is touched),
and leaves `permits` unchanged at `0`. -/
theorem claim3_release_wakes_head (n : ℕ) (s0 : Semaphore) (ops : List Op)
    (r : Nat) (rest : List Nat)
    (h0 : mkSemaphore (n : ℚ) = Except.ok s0)
    (hw : (run s0 ops).waiting = r :: rest) :
    release (run s0 ops) = ({ run s0 ops with waiting := rest }, some r) ∧
    (run s0 ops).permits = 0 ∧ (release (run s0 ops)).1.permits = 0 := by
  obtain ⟨rfl, -⟩ := mkSemaphore_ok _ _ h0
  obtain ⟨-, -, -, hq⟩ := semInv_run ops _ (semInv_init n)
  have hz : (run (initSem (n : ℚ)) ops).permits = 0 := hq (by simp [hw])
  have hr : release (run (initSem (n : ℚ)) ops) =
      ({ run (initSem (n : ℚ)) ops with waiting := rest }, some r) := by
    simp [release, hw]
  refine ⟨hr, hz, ?_⟩
  rw [hr]
  exact hz

theorem claim3_witness :
    (run (initSem ((0 : ℕ) : ℚ)) [Op.acquire 5, Op.acquire 6]).waiting = 5 :: [6] ∧
    (release (run (initSem ((0 : ℕ) : ℚ)) [Op.acquire 5, Op.acquire 6]) =
      ({ run (initSem ((0 : ℕ) : ℚ)) [Op.acquire 5, Op.acquire 6] with waiting := [6] },
        some 5) ∧
      (run (initSem ((0 : ℕ) : ℚ)) [Op.acquire 5, Op.acquire 6]).permits = 0 ∧
      (release (run (initSem ((0 : ℕ) : ℚ)) [Op.acquire 5, Op.acquire 6])).1.permits = 0) :=
  ⟨by norm_num [run, acquire, initSem],
    claim3_release_wakes_head 0 _ [Op.acquire 5, Op.acquire 6] 5 [6]
      (by norm_num [mkSemaphore, initSem])
      (by norm_num [run, acquire, initSem])⟩

/-- C4: in every reachable state, `acquire` is a two-branch step: with
`permits > 0` it only decrements the counter and is granted immediately;
with `permits = 0` it only appends one marker to the tail of the queue
(the caller then suspends on it) and leaves the counter unchanged; and the
two branches are exhaustive. -/
theorem claim4_acquire_branches (n : ℕ) (s0 : Semaphore) (ops : List Op) (i : Nat)
    (h0 : mkSemaphore (n : ℚ) = Except.ok s0) :
    (0 < (run s0 ops).permits →
      acquire (run s0 ops) i =
        ({ run s0 ops with permits := (run s0 ops).permits - 1 }, AcqResult.granted)) ∧
    ((run s0 ops).permits = 0 →
      acquire (run s0 ops) i =
        ({ run s0 ops with waiting := (run s0 ops).waiting ++ [i] },
          AcqResult.queued i)) ∧
    (0 < (run s0 ops).permits ∨ (run s0 ops).permits = 0) := by
  obtain ⟨rfl, -⟩ := mkSemaphore_ok _ _ h0
  obtain ⟨⟨k, hk⟩, -, -, -⟩ := semInv_run ops _ (semInv_init n)
  refine ⟨fun hp => by simp [acquire, hp], fun hz => by simp [acquire, hz], ?_⟩
  rcases Nat.eq_zero_or_pos k with h | h
  · right
    rw [hk, h]
    norm_num
  · left
    rw [hk]
    exact_mod_cast h

theorem claim4_witness :
    0 < (run (initSem ((1 : ℕ) : ℚ)) []).permits ∧
    acquire (run (initSem ((1 : ℕ) : ℚ)) []) 7 =
      ({ run (initSem ((1 : ℕ) : ℚ)) [] with
          permits := (run (initSem ((1 : ℕ) : ℚ)) []).permits - 1 },
        AcqResult.granted) :=
  ⟨by norm_num [run, initSem],
    (claim4_acquire_branches 1 _ [] 7 (by norm_num [mkSemaphore, initSem])).1
      (by norm_num [run, initSem])⟩

/-- C5: over-release saturation: when the queue is empty and
`permits = maxPermits`, `release` leaves the whole state unchanged and
signals no error (the step is total and returns the state as is). -/
theorem claim5_over_release (s : Semaphore) (hw : s.waiting = [])
    (hp : s.permits = s.maxPermits) :
    release s = (s, none) := by
  simp [release, hw, hp]

theorem claim5_witness :
    (initSem 2).waiting = [] ∧ (initSem 2).permits = (initSem 2).maxPermits ∧
    release (initSem 2) = (initSem 2, none) :=
  ⟨rfl, rfl, claim5_over_release (initSem 2) rfl rfl⟩

/-- C6: construction with a negative capacity fails with the
invalid-argument error and yields no instance; construction with any
capacity `c ≥ 0` (zero included) succeeds with
`permits = maxPermits = c` and an empty queue; and with capacity `0`
every acquire in every reachable state queues its marker. -/
theorem claim6_construction (c : ℚ) (ops : List Op) (i : Nat) :
    (c < 0 → mkSemaphore c = Except.error errMsg) ∧
    (0 ≤ c → mkSemaphore c =
      Except.ok { permits := c, maxPermits := c, waiting := [] }) ∧
    acquire (run (initSem ((0 : ℕ) : ℚ)) ops) i =
      ({ run (initSem ((0 : ℕ) : ℚ)) ops with
          waiting := (run (initSem ((0 : ℕ) : ℚ)) ops).waiting ++ [i] },
        AcqResult.queued i) := by
  refine ⟨fun hneg => by simp [mkSemaphore, hneg],
    fun hpos => mkSemaphore_nonneg c hpos, ?_⟩
  obtain ⟨⟨k, hk⟩, -, hle, -⟩ := semInv_run ops _ (semInv_init 0)
  have hmax : (run (initSem ((0 : ℕ) : ℚ)) ops).maxPermits = ((0 : ℕ) : ℚ) := by
    rw [run_maxPermits]
    rfl
  have hle0 : (run (initSem ((0 : ℕ) : ℚ)) ops).permits ≤ 0 := by
    rw [hmax] at hle
    simpa using hle
  have hnp : ¬ 0 < (run (initSem ((0 : ℕ) : ℚ)) ops).permits := not_lt.mpr hle0
  simp only [acquire]
  rw [if_neg hnp]

theorem claim6_witness :
    ((-1 : ℚ) < 0 ∧ mkSemaphore (-1) = Except.error errMsg) ∧
    ((0 : ℚ) ≤ 0 ∧ mkSemaphore 0 =
      Except.ok { permits := 0, maxPermits := 0, waiting := [] }) ∧
    acquire (run (initSem ((0 : ℕ) : ℚ)) [Op.acquire 3]) 4 =
      ({ run (initSem ((0 : ℕ) : ℚ)) [Op.acquire 3] with
          waiting := (run (initSem ((0 : ℕ) : ℚ)) [Op.acquire 3]).waiting ++ [4] },
        AcqResult.queued 4) :=
  ⟨⟨by norm_num, (claim6_construction (-1) [] 0).1 (by norm_num)⟩,
    ⟨le_refl 0, (claim6_construction 0 [] 0).2.1 (le_refl 0)⟩,
    (claim6_construction 0 [Op.acquire 3] 4).2.2⟩

/-- C7: round-trip conservation: from the fresh state with capacity `N`,
`k` acquires followed by `k` releases (`k ≤ N`) restore the fresh state,
so `permits` returns to `N` with an empty queue. -/
theorem claim7_conservation (N k : ℕ) (hk : k ≤ N) :
    run (initSem (N : ℚ))
        (List.replicate k (Op.acquire 0) ++ List.replicate k Op.release) =
      initSem (N : ℚ) := by
  rw [run_append,
    run_replicate_acquire k (initSem (N : ℚ)) rfl
      (by simp only [initSem]; exact_mod_cast hk),
    run_replicate_release k
      { initSem (N : ℚ) with permits := (initSem (N : ℚ)).permits - (k : ℚ) } rfl
      (by simp [initSem])]
  simp [initSem]

theorem claim7_witness :
    2 ≤ 3 ∧
    run (initSem ((3 : ℕ) : ℚ))
        (List.replicate 2 (Op.acquire 0) ++ List.replicate 2 Op.release) =
      initSem ((3 : ℕ) : ℚ) :=
  ⟨by norm_num, claim7_conservation 3 2 (by norm_num)⟩

/-- C8: FIFO completion order: along any serialized run from a fresh
state, the trace of markers resolved by releases equals, in order, an
initial segment of the trace of markers enqueued by acquires (the still
unresolved markers being exactly the final queue, in order); hence queued
acquires complete exactly in arrival order, and the trace-collecting run
agrees with the plain run. -/
theorem claim8_fifo (n : ℕ) (ops : List Op) :
    (runT (initSem (n : ℚ)) ops).2.1 =
      (runT (initSem (n : ℚ)) ops).2.2 ++ (runT (initSem (n : ℚ)) ops).1.waiting ∧
    (runT (initSem (n : ℚ)) ops).1 = run (initSem (n : ℚ)) ops := by
  constructor
  · have h := runT_waiting_eq ops (initSem (n : ℚ))
    simpa [initSem] using h
  · exact runT_fst ops _

/-- C9: `maxPermits` is fixed at construction: it equals the constructor's
capacity argument in every reachable state, and neither `acquire` nor
`release` changes it. -/
theorem claim9_maxPermits_immutable (c : ℚ) (s0 : Semaphore) (ops : List Op) (i : Nat)
    (h0 : mkSemaphore c = Except.ok s0) :
    (run s0 ops).maxPermits = c ∧
    (acquire (run s0 ops) i).1.maxPermits = (run s0 ops).maxPermits ∧
    (release (run s0 ops)).1.maxPermits = (run s0 ops).maxPermits := by
  obtain ⟨rfl, -⟩ := mkSemaphore_ok _ _ h0
  refine ⟨?_, acquire_maxPermits _ i, release_maxPermits _⟩
  rw [run_maxPermits]
  rfl

theorem claim9_witness :
    mkSemaphore 2 = Except.ok (initSem 2) ∧
    ((run (initSem 2) [Op.release, Op.acquire 0]).maxPermits = 2 ∧
      (acquire (run (initSem 2) [Op.release, Op.acquire 0]) 0).1.maxPermits =
        (run (initSem 2) [Op.release, Op.acquire 0]).maxPermits ∧
      (release (run (initSem 2) [Op.release, Op.acquire 0])).1.maxPermits =
        (run (initSem 2) [Op.release, Op.acquire 0]).maxPermits) :=
  ⟨by norm_num [mkSemaphore, initSem],
    claim9_maxPermits_immutable 2 _ [Op.release, Op.acquire 0] 0
      (by norm_num [mkSemaphore, initSem])⟩

/-- C10: the constructor fails exactly when the capacity is negative; any
capacity `c ≥ 0`, fractional values included, is accepted and yields
`permits = maxPermits = c` — integrality is never checked. -/
theorem claim10_constructor_validation (c : ℚ) :
    (mkSemaphore c = Except.error errMsg ↔ c < 0) ∧
    (0 ≤ c → mkSemaphore c =
      Except.ok { permits := c, maxPermits := c, waiting := [] }) := by
  refine ⟨⟨fun h => ?_, fun hneg => by simp [mkSemaphore, hneg]⟩,
    fun hpos => mkSemaphore_nonneg c hpos⟩
  by_contra hc
  rw [mkSemaphore_nonneg c (not_lt.mp hc)] at h
  simp at h

theorem claim10_witness :
    (0 : ℚ) ≤ 3 / 2 ∧
    mkSemaphore (3 / 2) =
      Except.ok { permits := 3 / 2, maxPermits := 3 / 2, waiting := [] } ∧
    ¬ mkSemaphore (3 / 2) = Except.error errMsg :=
  ⟨by norm_num, (claim10_constructor_validation (3 / 2)).2 (by norm_num),
    fun h => absurd ((claim10_constructor_validation (3 / 2)).1.mp h) (by norm_num)⟩

end CountingSemaphore
